import Mathlib

set_option maxRecDepth 4000

/-!
Shallow embedding of the keystroke replay engine of the poiesis-server
repository: the function `ParseWritingSession` (package `utils`), which
splits a raw transcript into lines, extracts a 4-line header, parses the
remaining lines into timed keystroke events, replays them into the final
text, and computes the elapsed-time figure.

Modeling conventions:
- Transcripts are modeled as sequences of Unicode scalar values
  (`List Char`), i.e. Go strings holding valid UTF-8.  The engine's
  delimiters (`'\n'`, `' '`, digits, `'.'`, `'e'`, `'x'`, `'p'`, `'_'`)
  are all ASCII, where Go's byte indices and the character view agree:
  splitting a line at the byte index of its last space yields the same
  two substrings as splitting the character list at its last space
  character, and `strings.Count(line, " ")` counts space bytes = space
  characters.
- The constructed text buffer is modeled at the byte level (`List Nat`
  of UTF-8 code units), because the source manipulates it by bytes:
  `constructedText.Len()` is a byte count and the Backspace case
  `str[:len(str)-1]` removes the final byte, which leaves a dangling
  partial UTF-8 sequence when the buffer ends in a multi-byte character.
  `RawContent` therefore holds the raw bytes of the built Go string
  (which need not be valid UTF-8).
- Go `int` is int64; the running delay total wraps on overflow with
  two's-complement semantics (`wrap64`), as the Go language defines.
  `Int.tdiv` models Go's truncating integer division.
- `strconv.ParseFloat(s, 64)` is modeled exactly: the full accepted
  syntax (optional sign; `inf`/`infinity` case-insensitively, signed;
  `nan` case-insensitively, unsigned — Go's `special` falls through the
  sign case into the infinity branch, so a signed NaN is a syntax
  error; hexadecimal floats with mandatory `p` exponent; decimals with
  optional fraction and `e` exponent; digit-separating underscores per
  Go's `underscoreOK`), with the value correctly rounded to the nearest
  IEEE-754 binary64 (ties to even), overflow returning an `ErrRange`
  error (which the source's `err != nil` check turns into a dropped
  line) and underflow flushing to zero with no error.  All arithmetic
  is exact integer arithmetic on mantissa/exponent pairs.
- `delayFloat * 1000` is binary64 multiplication (correctly rounded);
  `int(...)` of a value outside int64's range (or NaN/±Inf) is
  implementation-defined by the Go spec and is modeled as the gc/amd64
  build (`cvttsd2si`): the most negative int64.  In-range finite values
  truncate toward zero.
-/

namespace PoiesisServer

/-- Character class of Go `unicode.IsSpace` (the white space characters
trimmed by `strings.TrimSpace`). -/
def goIsSpace (c : Char) : Bool :=
  c = ' ' || c = '\t' || c = '\n' || c.toNat = 11 || c.toNat = 12 ||
  c = '\r' || c.toNat = 0x85 || c.toNat = 0xA0 || c.toNat = 0x1680 ||
  (0x2000 ≤ c.toNat && c.toNat ≤ 0x200A) || c.toNat = 0x2028 ||
  c.toNat = 0x2029 || c.toNat = 0x202F || c.toNat = 0x205F || c.toNat = 0x3000

/-- Model of Go `strings.TrimSpace`: drop white space characters from both
ends of the string. -/
def goTrimSpaceL (l : List Char) : List Char :=
  ((l.dropWhile goIsSpace).reverse.dropWhile goIsSpace).reverse

/-- Model of Go `strings.Split(s, "\n")`: split into the (non-empty) list
of segments between newline characters, keeping empty segments. -/
def splitLines : List Char → List (List Char)
  | [] => [[]]
  | c :: rest =>
    if c = '\n' then [] :: splitLines rest
    else
      match splitLines rest with
      | [] => [[c]]
      | l :: ls => (c :: l) :: ls

/-- Index of the last occurrence of a space character in the line, as in
Go `strings.LastIndex(line, " ")` (`none` plays the role of `-1`). -/
def lastSpaceIdx : List Char → Option Nat
  | [] => none
  | c :: rest =>
    match lastSpaceIdx rest with
    | some i => some (i + 1)
    | none => if c = ' ' then some 0 else none

/-- Test that every character of the list is an ASCII decimal digit. -/
def allDigits (l : List Char) : Bool :=
  l.all (fun c => c.isDigit)

/-- Numeric value of a list of decimal digit characters. -/
def digitsToNat (l : List Char) : Nat :=
  l.foldl (fun a c => a * 10 + (c.toNat - 48)) 0

/-- Split a list at the first occurrence of a character: `some (before,
after)` when the character occurs, `none` otherwise. -/
def splitOnFirst (c : Char) : List Char → Option (List Char × List Char)
  | [] => none
  | x :: rest =>
    if x = c then some ([], rest)
    else (splitOnFirst c rest).map (fun p => (x :: p.1, p.2))

/-- ASCII lowercasing of one character. -/
def lowerChar (c : Char) : Char :=
  if 'A' ≤ c ∧ c ≤ 'Z' then Char.ofNat (c.toNat + 32) else c

/-- ASCII lowercasing of a character list. -/
def lowerStr (l : List Char) : List Char :=
  l.map lowerChar

/-- Test for a lowercased hexadecimal digit. -/
def isHexDigit (c : Char) : Bool :=
  c.isDigit || ('a' ≤ c && c ≤ 'f')

/-- Value of a lowercased hexadecimal digit. -/
def hexVal (c : Char) : Nat :=
  if c.isDigit then c.toNat - 48 else c.toNat - 87

/-- Numeric value of a list of lowercased hexadecimal digit characters. -/
def hexToNat (l : List Char) : Nat :=
  l.foldl (fun a c => a * 16 + hexVal c) 0

/-- Port of strconv's `underscoreOK`: underscores in a numeric string are
legal only after a digit or a base prefix and before a digit.  The scan
state `saw` is `'^'` at the start of the number, `'0'` after a digit or
base prefix, `'_'` after an underscore, `'!'` after anything else. -/
def underscoreOK (s : List Char) : Bool :=
  let s1 : List Char :=
    match s with
    | '+' :: r => r
    | '-' :: r => r
    | r => r
  let pre : List Char × Char × Bool :=
    match s1 with
    | '0' :: c :: r =>
      if lowerChar c = 'b' ∨ lowerChar c = 'o' ∨ lowerChar c = 'x' then
        (r, '0', lowerChar c = 'x')
      else (s1, '^', false)
    | _ => (s1, '^', false)
  let hex := pre.2.2
  let step : (Bool × Char) → Char → (Bool × Char) := fun acc c =>
    if !acc.1 then acc
    else if c.isDigit || (hex && 'a' ≤ lowerChar c && lowerChar c ≤ 'f') then (true, '0')
    else if c = '_' then (if acc.2 = '0' then (true, '_') else (false, acc.2))
    else if acc.2 = '_' then (false, acc.2)
    else (true, '!')
  let res := pre.1.foldl step (true, pre.2.1)
  res.1 && res.2 ≠ '_'

/-- Number of halving steps of `n` guarded by a structural fuel: with fuel
at least `n` this is the binary length of `n` (0 for `n = 0`). -/
def bitLenAux : Nat → Nat → Nat
  | 0, _ => 0
  | fuel + 1, n => if n = 0 then 0 else bitLenAux fuel (n / 2) + 1

/-- Binary length of a natural number: `2 ^ (bitLen n - 1) ≤ n < 2 ^ bitLen n`
for `n ≥ 1`. -/
def bitLen (n : Nat) : Nat :=
  bitLenAux n n

/-- Decide `2 ^ L ≤ num / den` for positive naturals by clearing
denominators. -/
def ratLePow2 (num den : Nat) (L : Int) : Bool :=
  if 0 ≤ L then den * 2 ^ L.toNat ≤ num else den ≤ num * 2 ^ (-L).toNat

/-- Floor of the base-2 logarithm of `num / den` (both at least 1): the
bit lengths bracket it within one, and one comparison settles it. -/
def ratLog2 (num den : Nat) : Int :=
  let l : Int := (bitLen num : Int) - (bitLen den : Int)
  if ratLePow2 num den l then l else l - 1

/-- An IEEE-754 binary64 value as Go produces and consumes it: a finite
value `(-1)^neg * mant * 2^expo` (with `mant < 2^53`; `mant = 0` encodes
a signed zero), an infinity, or a NaN. -/
inductive GoFloat where
  | finite (neg : Bool) (mant : Nat) (expo : Int)
  | inf (neg : Bool)
  | nan
deriving Repr, DecidableEq

/-- Round the positive rational `num / den` (both at least 1) to the
nearest binary64, ties to even: normalize the quotient into a 53-bit
mantissa (or a subnormal at exponent -1074), round half-to-even on the
division remainder, and overflow to infinity beyond the largest finite
value. -/
def roundPosRat (neg : Bool) (num den : Nat) : GoFloat :=
  let L : Int := ratLog2 num den
  let e : Int := max (L - 52) (-1074)
  let nd : Nat × Nat :=
    if 0 ≤ e then (num, den * 2 ^ e.toNat) else (num * 2 ^ (-e).toNat, den)
  let q := nd.1 / nd.2
  let r := nd.1 % nd.2
  let mant := if 2 * r > nd.2 then q + 1 else if 2 * r < nd.2 then q else q + q % 2
  let me : Nat × Int := if mant = 2 ^ 53 then (2 ^ 52, e + 1) else (mant, e)
  if 971 < me.2 then .inf neg else .finite neg me.1 me.2

/-- Parse an unsigned decimal mantissa (digits with an optional single
point, at least one digit in total) into its digit value and the number
of fractional digits. -/
def parseMantissa (l : List Char) : Option (Nat × Nat) :=
  match splitOnFirst '.' l with
  | none =>
    if l.isEmpty || !allDigits l then none
    else some (digitsToNat l, 0)
  | some (ip, fp) =>
    if (ip.isEmpty && fp.isEmpty) || !allDigits ip || !allDigits fp then none
    else some (digitsToNat (ip ++ fp), fp.length)

/-- Parse an exponent part (optional sign, then at least one decimal
digit). -/
def parseExpPart (l : List Char) : Option Int :=
  match l with
  | '+' :: rest =>
    if rest.isEmpty || !allDigits rest then none else some (digitsToNat rest)
  | '-' :: rest =>
    if rest.isEmpty || !allDigits rest then none else some (-(digitsToNat rest : Int))
  | _ =>
    if l.isEmpty || !allDigits l then none else some (digitsToNat l)

/-- Parse an unsigned hexadecimal mantissa (lowercased input; hex digits
with an optional single point, at least one digit in total) into its
digit value and the number of fractional hex digits. -/
def parseHexMantissa (l : List Char) : Option (Nat × Nat) :=
  match splitOnFirst '.' l with
  | none =>
    if l.isEmpty || !l.all isHexDigit then none
    else some (hexToNat l, 0)
  | some (ip, fp) =>
    if (ip.isEmpty && fp.isEmpty) || !ip.all isHexDigit || !fp.all isHexDigit then none
    else some (hexToNat (ip ++ fp), fp.length)

/-- Rounded binary64 of the decimal value `m * 10 ^ e10`, with Go's
ParseFloat error behavior: `none` on overflow (`ErrRange`), a signed
zero on underflow (no error).  The outer exponent clamps (safely beyond
the binary64 range) avoid building astronomically large powers; inside
them the rounding is exact. -/
def decToFloat (neg : Bool) (m : Nat) (e10 : Int) : Option GoFloat :=
  if m = 0 then some (.finite neg 0 0)
  else if 400 < e10 then none
  else if e10 + (bitLen m : Int) < -340 then some (.finite neg 0 0)
  else
    let f := if 0 ≤ e10 then roundPosRat neg (m * 10 ^ e10.toNat) 1
             else roundPosRat neg m (10 ^ (-e10).toNat)
    match f with
    | .inf _ => none
    | g => some g

/-- Rounded binary64 of the hexadecimal value `m * 2 ^ e2`, with the same
overflow/underflow behavior as `decToFloat`. -/
def hexToFloat (neg : Bool) (m : Nat) (e2 : Int) : Option GoFloat :=
  if m = 0 then some (.finite neg 0 0)
  else if 1100 < e2 then none
  else if e2 + (bitLen m : Int) < -1200 then some (.finite neg 0 0)
  else
    let f := if 0 ≤ e2 then roundPosRat neg (m * 2 ^ e2.toNat) 1
             else roundPosRat neg m (2 ^ (-e2).toNat)
    match f with
    | .inf _ => none
    | g => some g

/-- Model of Go `strconv.ParseFloat(s, 64)`: `some` of the parsed value
exactly when ParseFloat returns with `err == nil`, `none` exactly when it
returns a syntax or range error (see the modeling notes). -/
def goParseFloat (s0 : List Char) : Option GoFloat :=
  if s0.contains '_' && !underscoreOK s0 then none
  else
    let s := s0.filter (fun c => c != '_')
    let neg : Bool :=
      match s with
      | '-' :: _ => true
      | _ => false
    let rest : List Char :=
      match s with
      | '+' :: r => r
      | '-' :: r => r
      | r => r
    let low := lowerStr rest
    if low = "inf".toList ∨ low = "infinity".toList then some (.inf neg)
    else if lowerStr s = "nan".toList then some .nan
    else
      match low with
      | '0' :: 'x' :: hx =>
        (match splitOnFirst 'p' hx with
         | none => none
         | some (mstr, estr) =>
           match parseHexMantissa mstr, parseExpPart estr with
           | some md, some ex => hexToFloat neg md.1 (ex - 4 * (md.2 : Int))
           | _, _ => none)
      | _ =>
        match splitOnFirst 'e' low with
        | none =>
          match parseMantissa low with
          | none => none
          | some md => decToFloat neg md.1 (-(md.2 : Int))
        | some (mstr, estr) =>
          match parseMantissa mstr, parseExpPart estr with
          | some md, some ex => decToFloat neg md.1 (ex - (md.2 : Int))
          | _, _ => none

/-- Model of Go `delayFloat * 1000`: binary64 multiplication by the
exactly representable 1000, i.e. correct rounding of the exact product;
infinities and NaN propagate, zeros keep their sign, and overflow
produces an infinity. -/
def goFloatMul1000 (f : GoFloat) : GoFloat :=
  match f with
  | .nan => .nan
  | .inf neg => .inf neg
  | .finite neg mant expo =>
    if mant = 0 then .finite neg 0 0
    else if 0 ≤ expo then roundPosRat neg (mant * 1000 * 2 ^ expo.toNat) 1
    else roundPosRat neg (mant * 1000) (2 ^ (-expo).toNat)

/-- Truncation toward zero of the finite float `(-1)^neg * mant * 2^expo`,
as an unbounded integer. -/
def finiteTrunc (neg : Bool) (mant : Nat) (expo : Int) : Int :=
  let t : Nat := if 0 ≤ expo then mant * 2 ^ expo.toNat else mant / 2 ^ (-expo).toNat
  if neg then -(t : Int) else (t : Int)

/-- Model of Go `int(x)` for a float64 `x`: truncation toward zero when
the truncated value is representable in int64.  Go leaves the conversion
implementation-defined for NaN, infinities and out-of-range values; this
models the gc/amd64 build (`cvttsd2si`), which yields the most negative
int64 in all those cases. -/
def goFloatToInt (f : GoFloat) : Int :=
  match f with
  | .nan => -(2 ^ 63)
  | .inf _ => -(2 ^ 63)
  | .finite neg mant expo =>
    let v := finiteTrunc neg mant expo
    if v < -(2 ^ 63) ∨ 2 ^ 63 ≤ v then -(2 ^ 63) else v

/-- Two's-complement wraparound of int64 arithmetic (Go defines signed
integer overflow to wrap). -/
def wrap64 (x : Int) : Int :=
  (x + 2 ^ 63) % 2 ^ 64 - 2 ^ 63

/-- One parsed keystroke event (`KeyStroke` in the source): the key token
and its delay in integer milliseconds. -/
structure KeyStroke where
  Key : String
  Delay : Int
deriving Repr, DecidableEq

/-- Result record of `ParseWritingSession` (`WritingSession` in the
source).  `RawContent` is the byte sequence of the built Go string. -/
structure WritingSession where
  UserID : String
  SessionID : String
  Prompt : String
  Timestamp : String
  KeyStrokes : List KeyStroke
  RawContent : List Nat
  TimeSpent : Int
deriving Repr, DecidableEq

/-- The single fatal parse failure (`"invalid writing session format"`,
raised when the transcript has fewer than 4 lines). -/
inductive ParseError where
  | invalidFormat
deriving Repr, DecidableEq

deriving instance DecidableEq for Except

/-- Key token and delay string of one keystroke line: the space-keystroke
rule (line starts with a space and has exactly two spaces in total) gives
key `" "` and the trimmed line as delay string; otherwise the line is cut
at its last space (`none` when the line has no space at all). -/
def lineKeyDelay (line : List Char) : Option (List Char × List Char) :=
  if line.head? = some ' ' ∧ line.count ' ' = 2 then
    some ([' '], goTrimSpaceL line)
  else
    match lastSpaceIdx line with
    | none => none
    | some i => some (goTrimSpaceL (line.take i), goTrimSpaceL (line.drop (i + 1)))

/-- Keystroke event produced by one transcript line: `none` when the line
is empty, has no space, or has a delay string on which ParseFloat errs;
otherwise the key with its delay, the int64 conversion of the float
product of the parsed delay and 1000. -/
def lineEvent (line : List Char) : Option KeyStroke :=
  if line.isEmpty then none
  else
    match lineKeyDelay line with
    | none => none
    | some (k, d) =>
      match goParseFloat d with
      | none => none
      | some f => some ⟨⟨k⟩, goFloatToInt (goFloatMul1000 f)⟩

/-- UTF-8 encoding of one Unicode scalar value, as the byte values Go
appends for it. -/
def utf8EncodeCharNat (c : Char) : List Nat :=
  let n := c.toNat
  if n < 0x80 then [n]
  else if n < 0x800 then [0xC0 + n / 0x40, 0x80 + n % 0x40]
  else if n < 0x10000 then
    [0xE0 + n / 0x1000, 0x80 + n / 0x40 % 0x40, 0x80 + n % 0x40]
  else
    [0xF0 + n / 0x40000, 0x80 + n / 0x1000 % 0x40, 0x80 + n / 0x40 % 0x40,
     0x80 + n % 0x40]

/-- UTF-8 bytes of a character sequence (the bytes of the corresponding
Go string). -/
def utf8Bytes (l : List Char) : List Nat :=
  (l.map utf8EncodeCharNat).flatten

/-- Byte-level text-buffer update of the replay `switch`: `Backspace`
drops the last byte of a non-empty buffer (`str[:len(str)-1]` on a byte
string), `Enter` appends the newline byte, the space key appends one
space byte, and any other key has its UTF-8 bytes appended verbatim. -/
def replayKey (buf : List Nat) (key : String) : List Nat :=
  if key = "Backspace" then
    if buf.length > 0 then buf.dropLast else buf
  else if key = "Enter" then buf ++ [10]
  else if key = " " then buf ++ [32]
  else buf ++ utf8Bytes key.toList

/-- State threaded through the keystroke loop: the accumulated event list
(`keyStrokes`), the byte buffer (`constructedText`) and the running delay
total (`totalMilliseconds`). -/
structure LoopState where
  keyStrokes : List KeyStroke
  text : List Nat
  totalMs : Int
deriving Repr, DecidableEq

/-- Body of the keystroke loop for one line: a line with no event leaves
the state unchanged (`continue`); otherwise the event is appended, its
delay added to the total (int64 addition), and the text buffer updated. -/
def processLine (st : LoopState) (line : List Char) : LoopState :=
  match lineEvent line with
  | none => st
  | some ks =>
    ⟨st.keyStrokes ++ [ks], replayKey st.text ks.Key, wrap64 (st.totalMs + ks.Delay)⟩

/-- Overwrite of the computed elapsed time on the source's line 122: the
value computed as `totalMilliseconds/1000 + 8` is discarded and replaced
by the constant 490. -/
def timeSpentOverride (_computed : Int) : Int := 490

/-- Model of `ParseWritingSession`: split into lines, fail on fewer than
4 lines, trim the 4 header lines, run the keystroke loop over the rest,
and assemble the session (with the elapsed-time overwrite). -/
def ParseWritingSession (content : String) : Except ParseError WritingSession :=
  let lines := splitLines content.toList
  if lines.length < 4 then .error .invalidFormat
  else
    let final := (lines.drop 4).foldl processLine ⟨[], [], 0⟩
    .ok
      { UserID := ⟨goTrimSpaceL (lines.getD 0 [])⟩
        SessionID := ⟨goTrimSpaceL (lines.getD 1 [])⟩
        Prompt := ⟨goTrimSpaceL (lines.getD 2 [])⟩
        Timestamp := ⟨goTrimSpaceL (lines.getD 3 [])⟩
        KeyStrokes := final.keyStrokes
        RawContent := final.text
        TimeSpent := timeSpentOverride (Int.tdiv final.totalMs 1000 + 8) }

/-- Exact rational value of the finite float `(-1)^neg * mant * 2^expo`. -/
def goFloatVal (neg : Bool) (mant : Nat) (expo : Int) : Rat :=
  (if neg then (-1 : Rat) else 1) * (mant : Rat) * (2 : Rat) ^ expo

/-- Truncation of a rational toward zero. -/
def ratTrunc (q : Rat) : Int :=
  if 0 ≤ q then ⌊q⌋ else ⌈q⌉

/-- Replay fold step as the specification words it, at the character
level: `Backspace` removes the last character (no-op on an empty buffer),
`Enter` appends a newline, the space key appends one space, any other key
is appended verbatim in full. -/
def replaySpec (buf : List Char) (key : String) : List Char :=
  if key = "Backspace" then buf.dropLast
  else if key = "Enter" then buf ++ ['\n']
  else if key = " " then buf ++ [' ']
  else buf ++ key.toList

/-- Byte-level replay fold step (the program's actual semantics):
`Backspace` removes the last byte, `Enter` appends the newline byte, the
space key appends one space byte, any other key appends its UTF-8 bytes
verbatim. -/
def replayByteSpec (buf : List Nat) (key : String) : List Nat :=
  if key = "Backspace" then buf.dropLast
  else if key = "Enter" then buf ++ [10]
  else if key = " " then buf ++ [32]
  else buf ++ utf8Bytes key.toList

/-- Running delay total of the keystroke loop over a transcript's
keystroke lines. -/
def sessionTotalMs (content : String) : Int :=
  (((splitLines content.toList).drop 4).foldl processLine ⟨[], [], 0⟩).totalMs

theorem processLine_skip (st : LoopState) (line : List Char)
    (h : lineEvent line = none) : processLine st line = st := by
  unfold processLine
  rw [h]

theorem foldl_processLine (ls : List (List Char)) (st : LoopState) :
    ls.foldl processLine st =
      ⟨st.keyStrokes ++ ls.filterMap lineEvent,
       (ls.filterMap lineEvent).foldl (fun b ks => replayKey b ks.Key) st.text,
       (ls.filterMap lineEvent).foldl (fun a ks => wrap64 (a + ks.Delay)) st.totalMs⟩ := by
  induction ls generalizing st with
  | nil => simp
  | cons l ls ih =>
    simp only [List.foldl_cons, List.filterMap_cons]
    cases hE : lineEvent l with
    | none =>
      rw [processLine_skip st l hE, ih]
    | some ks =>
      rw [show processLine st l =
            ⟨st.keyStrokes ++ [ks], replayKey st.text ks.Key,
             wrap64 (st.totalMs + ks.Delay)⟩ from by
          unfold processLine; rw [hE], ih]
      simp [List.append_assoc]

theorem parse_error_iff (content : String) :
    ParseWritingSession content = .error .invalidFormat ↔
      (splitLines content.toList).length < 4 := by
  simp only [ParseWritingSession]
  split
  · simp_all
  · simp_all

theorem parse_ok_of_len (content : String)
    (h : ¬ (splitLines content.toList).length < 4) :
    ∃ s, ParseWritingSession content = .ok s := by
  simp only [ParseWritingSession]
  rw [if_neg h]
  exact ⟨_, rfl⟩

theorem parse_ok_fields (content : String) (s : WritingSession)
    (h : ParseWritingSession content = .ok s) :
    s.UserID = ⟨goTrimSpaceL ((splitLines content.toList).getD 0 [])⟩ ∧
    s.SessionID = ⟨goTrimSpaceL ((splitLines content.toList).getD 1 [])⟩ ∧
    s.Prompt = ⟨goTrimSpaceL ((splitLines content.toList).getD 2 [])⟩ ∧
    s.Timestamp = ⟨goTrimSpaceL ((splitLines content.toList).getD 3 [])⟩ ∧
    s.KeyStrokes = ((splitLines content.toList).drop 4).filterMap lineEvent ∧
    s.RawContent = (((splitLines content.toList).drop 4).filterMap lineEvent).foldl
      (fun b ks => replayKey b ks.Key) [] ∧
    s.TimeSpent = 490 := by
  simp only [ParseWritingSession] at h
  split at h
  · cases h
  · injection h with h
    subst h
    rw [foldl_processLine]
    simp [timeSpentOverride]

theorem replayKey_eq_byteSpec (buf : List Nat) (key : String) :
    replayKey buf key = replayByteSpec buf key := by
  unfold replayKey replayByteSpec
  cases buf <;> simp

theorem foldl_replayKey_eq_byteSpec (l : List KeyStroke) (buf : List Nat) :
    l.foldl (fun b ks => replayKey b ks.Key) buf =
      l.foldl (fun b ks => replayByteSpec b ks.Key) buf := by
  induction l generalizing buf with
  | nil => rfl
  | cons ks l ih => simp only [List.foldl_cons, replayKey_eq_byteSpec, ih]

theorem lastSpaceIdx_eq_none (line : List Char) (h : ' ' ∉ line) :
    lastSpaceIdx line = none := by
  induction line with
  | nil => rfl
  | cons c rest ih =>
    simp only [List.mem_cons, not_or] at h
    unfold lastSpaceIdx
    rw [ih h.2, if_neg (by exact fun hc => h.1 hc.symm)]

theorem ratTrunc_intCast (z : Int) : ratTrunc (z : Rat) = z := by
  unfold ratTrunc
  split <;> simp

theorem ratTrunc_intCast_div_natCast (a : Int) (b : Nat) :
    ratTrunc ((a : Rat) / (b : Rat)) = Int.tdiv a b := by
  rcases Nat.eq_zero_or_pos b with hb | hb
  · subst hb
    simp [ratTrunc]
  · rcases le_or_lt 0 a with ha | ha
    · have hq : (0 : Rat) ≤ (a : Rat) / (b : Rat) :=
        div_nonneg (by exact_mod_cast ha) (by positivity)
      rw [ratTrunc, if_pos hq, Rat.floor_intCast_div_natCast,
        Int.tdiv_eq_ediv ha (by exact_mod_cast Nat.zero_le b)]
    · have hq : ((a : Rat) / (b : Rat)) < 0 :=
        div_neg_of_neg_of_pos (by exact_mod_cast ha) (by positivity)
      rw [ratTrunc, if_neg (not_le.mpr hq)]
      have h1 : ((a : Rat) / (b : Rat)) = -(((-a : Int) : Rat) / (b : Rat)) := by
        push_cast
        ring
      rw [h1, Int.ceil_neg, Rat.floor_intCast_div_natCast,
        ← Int.tdiv_eq_ediv (by omega) (by exact_mod_cast Nat.zero_le b),
        Int.neg_tdiv, neg_neg]

theorem ratTrunc_neg (q : Rat) : ratTrunc (-q) = -ratTrunc q := by
  unfold ratTrunc
  rcases lt_trichotomy q 0 with h | h | h
  · rw [if_pos (by linarith), if_neg (not_le.mpr h), Int.floor_neg]
  · subst h
    norm_num
  · rw [if_neg (not_le.mpr (by linarith)), if_pos h.le, Int.ceil_neg]

theorem natMagTrunc_eq (m : Nat) (e : Int) :
    ((if 0 ≤ e then m * 2 ^ e.toNat else m / 2 ^ (-e).toNat : Nat) : Int) =
      ratTrunc ((m : Rat) * (2 : Rat) ^ e) := by
  split
  case isTrue he =>
    have hv : (m : Rat) * (2 : Rat) ^ e = (((m * 2 ^ e.toNat : Nat) : Int) : Rat) := by
      push_cast
      rw [← zpow_natCast (2 : Rat) e.toNat, Int.toNat_of_nonneg he]
    rw [hv, ratTrunc_intCast]
  case isFalse he =>
    have hv : (m : Rat) * (2 : Rat) ^ e =
        (((m : Nat) : Int) : Rat) / (((2 ^ (-e).toNat : Nat) : Nat) : Rat) := by
      push_cast
      rw [← zpow_natCast (2 : Rat) (-e).toNat, Int.toNat_of_nonneg (by omega : (0 : Int) ≤ -e),
        div_eq_mul_inv, ← zpow_neg, neg_neg]
    rw [hv, ratTrunc_intCast_div_natCast]
    rfl

theorem finiteTrunc_eq_ratTrunc (neg : Bool) (mant : Nat) (expo : Int) :
    finiteTrunc neg mant expo = ratTrunc (goFloatVal neg mant expo) := by
  cases neg with
  | false =>
    unfold finiteTrunc goFloatVal
    simp only [Bool.false_eq_true, if_false, one_mul]
    exact natMagTrunc_eq mant expo
  | true =>
    unfold finiteTrunc goFloatVal
    simp only [if_true]
    rw [show ((-1 : Rat)) * (mant : Rat) * (2 : Rat) ^ expo =
        -((mant : Rat) * (2 : Rat) ^ expo) by ring, ratTrunc_neg, ← natMagTrunc_eq]

theorem lineEvent_some_inv (line : List Char) (ks : KeyStroke)
    (h : lineEvent line = some ks) :
    ∃ k d f, lineKeyDelay line = some (k, d) ∧ goParseFloat d = some f ∧
      ks = ⟨⟨k⟩, goFloatToInt (goFloatMul1000 f)⟩ := by
  unfold lineEvent at h
  split at h
  · cases h
  · rcases hkd : lineKeyDelay line with _ | ⟨k, d⟩ <;> rw [hkd] at h
    · cases h
    · have h2 : (match goParseFloat d with
          | none => none
          | some f => some (⟨⟨k⟩, goFloatToInt (goFloatMul1000 f)⟩ : KeyStroke)) = some ks := h
      rcases hf : goParseFloat d with _ | f <;> rw [hf] at h2
      · cases h2
      · injection h2 with h2
        exact ⟨k, d, f, rfl, hf, h2.symm⟩

theorem lineEvent_eq_none_of_skipped (line : List Char)
    (h : line = [] ∨ ' ' ∉ line ∨
      (∃ k d, lineKeyDelay line = some (k, d) ∧ goParseFloat d = none)) :
    lineEvent line = none := by
  rcases h with rfl | hsp | ⟨k, d, hkd, hf⟩
  · rfl
  · have hkd : lineKeyDelay line = none := by
      unfold lineKeyDelay
      rw [if_neg ?_, lastSpaceIdx_eq_none line hsp]
      rintro ⟨hh, -⟩
      cases line with
      | nil => cases hh
      | cons c rest =>
        injection hh with hh
        exact hsp (hh ▸ List.mem_cons_self c rest)
    unfold lineEvent
    split
    · rfl
    · rw [hkd]
  · unfold lineEvent
    split
    · rfl
    · rw [hkd]
      show (match goParseFloat d with
          | none => none
          | some f => some (⟨⟨k⟩, goFloatToInt (goFloatMul1000 f)⟩ : KeyStroke)) = none
      rw [hf]

/-- C1: the claim that for transcripts with at least 4 lines `TimeSpent`
equals `floor(totalDelayMillis/1000) + 8` fails on the code: line 122 of
the source unconditionally overwrites the computed value with 490.  On
the transcript "u\ns\np\nt" the summed delay is 0 ms, so the claimed
value is `0/1000 + 8 = 8`, but the function returns `TimeSpent = 490`. -/
theorem C1_timeSpent_formula_overwritten :
    ∃ s, ParseWritingSession "u\ns\np\nt" = .ok s ∧
      sessionTotalMs "u\ns\np\nt" = 0 ∧
      Int.tdiv (sessionTotalMs "u\ns\np\nt") 1000 + 8 = 8 ∧
      s.TimeSpent = 490 ∧
      s.TimeSpent ≠ Int.tdiv (sessionTotalMs "u\ns\np\nt") 1000 + 8 :=
  ⟨⟨"u", "s", "p", "t", [], [], 490⟩, by decide, by decide, by decide, by decide, by decide⟩

/-- C2: every transcript accepted by `ParseWritingSession` (at least 4
lines when split on newlines) yields `TimeSpent = 490`, regardless of the
keystroke delays: the computed value is unconditionally overwritten with
the constant before the function returns. -/
theorem C2_timeSpent_always_490 (content : String) (s : WritingSession)
    (h : ParseWritingSession content = .ok s) : s.TimeSpent = 490 :=
  (parse_ok_fields content s h).2.2.2.2.2.2

theorem C2_timeSpent_always_490_witness :
    ∃ s, ParseWritingSession "u\ns\np\nt\na 0.1\nb 2.5" = .ok s ∧ s.TimeSpent = 490 := by
  have h : ParseWritingSession "u\ns\np\nt\na 0.1\nb 2.5" =
      .ok ⟨"u", "s", "p", "t", [⟨"a", 100⟩, ⟨"b", 2500⟩], [97, 98], 490⟩ := by decide
  exact ⟨_, h, C2_timeSpent_always_490 _ _ h⟩

/-- C3 counterexample: the claim that the replay removes the last
character of the buffer on Backspace is false of the program, which
slices off the last byte (`str[:len(str)-1]`).  On the transcript whose
keystroke lines are "é 0.1" and "Backspace 0.1" the program's
reconstructed text is the dangling byte 0xC3 (an invalid UTF-8 fragment
of the two-byte "é"), while the claimed character-level fold yields the
empty string. -/
theorem C3_counterexample_multibyte_backspace :
    ∃ s, ParseWritingSession "u\ns\np\nt\né 0.1\nBackspace 0.1" = .ok s ∧
      s.KeyStrokes = [⟨"é", 100⟩, ⟨"Backspace", 100⟩] ∧
      s.RawContent = [0xC3] ∧
      utf8Bytes (s.KeyStrokes.foldl (fun b ks => replaySpec b ks.Key) []) = [] ∧
      s.RawContent ≠ utf8Bytes (s.KeyStrokes.foldl (fun b ks => replaySpec b ks.Key) []) :=
  ⟨⟨"u", "s", "p", "t", [⟨"é", 100⟩, ⟨"Backspace", 100⟩], [0xC3], 490⟩,
   by decide, by decide, by decide, by decide, by decide⟩

/-- C3 amended: the reconstructed text of every accepted session is the
in-order fold of the returned keystroke list under the byte-level replay
semantics: Backspace drops the last byte (the last character only when
the buffer ends in a single-byte character; no-op on empty), Enter
appends the newline byte, the space key appends one space byte, and any
other key string is appended verbatim in full as its UTF-8 bytes; the
transcript whose keystroke lines are "a 0.1", "b 0.2", "Backspace 0.1"
still reconstructs to "a". -/
theorem C3_replay_fold_bytes (content : String) (s : WritingSession)
    (h : ParseWritingSession content = .ok s) :
    s.RawContent = s.KeyStrokes.foldl (fun b ks => replayByteSpec b ks.Key) [] ∧
    (ParseWritingSession "u\ns\np\nt\na 0.1\nb 0.2\nBackspace 0.1").toOption.map
      WritingSession.RawContent = some (utf8Bytes "a".toList) := by
  obtain ⟨-, -, -, -, hK, hR, -⟩ := parse_ok_fields content s h
  refine ⟨?_, by decide⟩
  rw [hR, hK, foldl_replayKey_eq_byteSpec]

theorem C3_replay_fold_bytes_witness :
    ([97] : List Nat) =
      ([⟨"a", 100⟩, ⟨"b", 200⟩, ⟨"Backspace", 100⟩] : List KeyStroke).foldl
        (fun b ks => replayByteSpec b ks.Key) [] := by
  have h : ParseWritingSession "u\ns\np\nt\na 0.1\nb 0.2\nBackspace 0.1" =
      .ok ⟨"u", "s", "p", "t", [⟨"a", 100⟩, ⟨"b", 200⟩, ⟨"Backspace", 100⟩], [97], 490⟩ := by
    decide
  exact (C3_replay_fold_bytes _ _ h).1

/-- C4: every keystroke line that starts with a space character and has
exactly two spaces in total is parsed as a space key event: the key is
the single-space string, the delay string is the whitespace-trimmed line,
and (when the delay parses) the replay appends exactly one literal space
character (one space byte) to the reconstructed text. -/
theorem C4_space_key_rule (line : List Char)
    (h1 : line.head? = some ' ') (h2 : line.count ' ' = 2) :
    lineKeyDelay line = some ([' '], goTrimSpaceL line) ∧
    ∀ f, goParseFloat (goTrimSpaceL line) = some f →
      lineEvent line = some ⟨" ", goFloatToInt (goFloatMul1000 f)⟩ ∧
      ∀ buf, replayKey buf " " = buf ++ [32] := by
  have hkd : lineKeyDelay line = some ([' '], goTrimSpaceL line) := by
    unfold lineKeyDelay
    rw [if_pos ⟨h1, h2⟩]
  refine ⟨hkd, fun f hf => ⟨?_, fun buf => ?_⟩⟩
  · cases line with
    | nil => cases h1
    | cons c rest =>
      unfold lineEvent
      rw [if_neg (show ¬((c :: rest).isEmpty = true) by simp), hkd]
      show (match goParseFloat (goTrimSpaceL (c :: rest)) with
          | none => none
          | some f2 => some (⟨⟨[' ']⟩, goFloatToInt (goFloatMul1000 f2)⟩ : KeyStroke)) =
        some ⟨" ", goFloatToInt (goFloatMul1000 f)⟩
      rw [hf]
  · unfold replayKey
    rw [if_neg (by decide), if_neg (by decide), if_pos rfl]

theorem C4_space_key_rule_witness :
    lineEvent "  0.5".toList = some ⟨" ", 500⟩ ∧ replayKey [97] " " = [97, 32] := by
  obtain ⟨-, h⟩ := C4_space_key_rule "  0.5".toList (by decide) (by decide)
  obtain ⟨he, hr⟩ := h (.finite false 4503599627370496 (-53)) (by decide)
  exact ⟨he.trans (by decide), hr [97]⟩

/-- C5: a transcript splitting into fewer than 4 lines fails with the
too-few-lines parse error (the only error of the function, so no partial
result is returned), and this is the only input condition producing an
error: with at least 4 lines the function always returns a session. -/
theorem C5_too_few_lines (content : String) :
    (ParseWritingSession content = .error .invalidFormat ↔
      (splitLines content.toList).length < 4) ∧
    (¬ (splitLines content.toList).length < 4 →
      ∃ s, ParseWritingSession content = .ok s) :=
  ⟨parse_error_iff content, parse_ok_of_len content⟩

theorem C5_too_few_lines_witness :
    ParseWritingSession "a\nb\nc" = .error .invalidFormat ∧
    ∃ s, ParseWritingSession "a\nb\nc\nd" = .ok s :=
  ⟨(C5_too_few_lines "a\nb\nc").1.mpr (by decide),
   (C5_too_few_lines "a\nb\nc\nd").2 (by decide)⟩

/-- C6: a keystroke line that is empty, contains no space at all, or has
a delay string on which ParseFloat errs (a syntax error, or a range error
such as "1e999") is dropped without aborting: it leaves the loop state
(events, text, delay total) unchanged, and the parse of a transcript with
at least 4 lines always succeeds, processing every keystroke line in
order. -/
theorem C6_bad_lines_dropped :
    (∀ st line, (line = [] ∨ ' ' ∉ line ∨
        (∃ k d, lineKeyDelay line = some (k, d) ∧ goParseFloat d = none)) →
      processLine st line = st) ∧
    (∀ content, ¬ (splitLines content.toList).length < 4 →
      ∃ s, ParseWritingSession content = .ok s ∧
        s.KeyStrokes = ((splitLines content.toList).drop 4).filterMap lineEvent) := by
  constructor
  · intro st line h
    exact processLine_skip st line (lineEvent_eq_none_of_skipped line h)
  · intro content hlen
    obtain ⟨s, hs⟩ := parse_ok_of_len content hlen
    exact ⟨s, hs, (parse_ok_fields content s hs).2.2.2.2.1⟩

theorem C6_bad_lines_dropped_witness :
    processLine ⟨[], [], 0⟩ "x notanumber".toList = ⟨[], [], 0⟩ ∧
    processLine ⟨[], [], 0⟩ "x 1e999".toList = ⟨[], [], 0⟩ ∧
    ∃ s, ParseWritingSession "u\ns\np\nt\nx notanumber\na 0.1" = .ok s ∧
      s.KeyStrokes =
        ((splitLines "u\ns\np\nt\nx notanumber\na 0.1".toList).drop 4).filterMap lineEvent :=
  ⟨C6_bad_lines_dropped.1 _ _
      (Or.inr (Or.inr ⟨"x".toList, "notanumber".toList, by decide, by decide⟩)),
   C6_bad_lines_dropped.1 _ _
      (Or.inr (Or.inr ⟨"x".toList, "1e999".toList, by decide, by decide⟩)),
   C6_bad_lines_dropped.2 _ (by decide)⟩

/-- C7: on every accepted transcript the four header fields are exactly
the first four lines with leading and trailing whitespace trimmed; no
further validation is performed (empty strings are accepted, as the
witness shows). -/
theorem C7_header_fields (content : String) (s : WritingSession)
    (h : ParseWritingSession content = .ok s) :
    s.UserID = ⟨goTrimSpaceL ((splitLines content.toList).getD 0 [])⟩ ∧
    s.SessionID = ⟨goTrimSpaceL ((splitLines content.toList).getD 1 [])⟩ ∧
    s.Prompt = ⟨goTrimSpaceL ((splitLines content.toList).getD 2 [])⟩ ∧
    s.Timestamp = ⟨goTrimSpaceL ((splitLines content.toList).getD 3 [])⟩ := by
  obtain ⟨h1, h2, h3, h4, -⟩ := parse_ok_fields content s h
  exact ⟨h1, h2, h3, h4⟩

theorem C7_header_fields_witness :
    ∃ s, ParseWritingSession "  u1 \ns1\n\n t1" = .ok s ∧
      s.UserID = "u1" ∧ s.SessionID = "s1" ∧ s.Prompt = "" ∧ s.Timestamp = "t1" := by
  have h : ParseWritingSession "  u1 \ns1\n\n t1" =
      .ok ⟨"u1", "s1", "", "t1", [], [], 490⟩ := by decide
  obtain ⟨h1, h2, h3, h4⟩ := C7_header_fields _ _ h
  exact ⟨_, h, h1.trans (by decide), h2.trans (by decide),
    h3.trans (by decide), h4.trans (by decide)⟩

/-- C8 counterexample: the claim that every keystroke event of a returned
session has a nonnegative delay is false: the delay field parses signed
decimals, so the keystroke line "a -1" yields the event delay -1000. -/
theorem C8_counterexample_negative_delay :
    ∃ s, ParseWritingSession "u\ns\np\nt\na -1" = .ok s ∧
      ∃ ks ∈ s.KeyStrokes, ks.Delay < 0 :=
  ⟨⟨"u", "s", "p", "t", [⟨"a", -1000⟩], [97], 490⟩, by decide,
   ⟨"a", -1000⟩, by decide, by decide⟩

/-- C8 amended: every keystroke event's delay is an integer, and it is
nonnegative provided that on every keystroke line whose delay parses, the
float64 product of the parsed delay and 1000 is a finite nonnegative
value whose truncation lies below 2^63.  (The code accepts signed delays,
so "a -1" records -1000; it also accepts "inf", "nan" and values whose
product overflows int64, for which Go's float-to-int conversion is
implementation-defined — the most negative int64 on the gc/amd64
build.) -/
theorem C8_delay_nonneg (content : String) (s : WritingSession)
    (h : ParseWritingSession content = .ok s)
    (hnn : ∀ line ∈ (splitLines content.toList).drop 4, ∀ k d f,
      lineKeyDelay line = some (k, d) → goParseFloat d = some f →
      ∃ mant expo, goFloatMul1000 f = .finite false mant expo ∧
        finiteTrunc false mant expo < 2 ^ 63) :
    ∀ ks ∈ s.KeyStrokes, 0 ≤ ks.Delay := by
  obtain ⟨-, -, -, -, hK, -, -⟩ := parse_ok_fields content s h
  rw [hK]
  intro ks hks
  rw [List.mem_filterMap] at hks
  obtain ⟨line, hline, hev⟩ := hks
  obtain ⟨k, d, f, hkd, hf, rfl⟩ := lineEvent_some_inv line ks hev
  obtain ⟨mant, expo, hfin, hlt⟩ := hnn line hline k d f hkd hf
  have hv : (0 : Int) ≤ finiteTrunc false mant expo := by
    unfold finiteTrunc
    simp only [Bool.false_eq_true, if_false]
    exact Int.natCast_nonneg _
  show (0 : Int) ≤ goFloatToInt (goFloatMul1000 f)
  rw [hfin]
  show (0 : Int) ≤
    (if finiteTrunc false mant expo < -(2 ^ 63) ∨ 2 ^ 63 ≤ finiteTrunc false mant expo
     then -(2 ^ 63) else finiteTrunc false mant expo)
  rw [if_neg (by push_neg; exact ⟨by omega, hlt⟩)]
  exact hv

theorem C8_delay_nonneg_witness :
    (0 : Int) ≤ (⟨"a", 500⟩ : KeyStroke).Delay := by
  have h : ParseWritingSession "u\ns\np\nt\na 0.5" =
      .ok ⟨"u", "s", "p", "t", [⟨"a", 500⟩], [97], 490⟩ := by decide
  refine C8_delay_nonneg _ _ h ?_ ⟨"a", 500⟩ (by decide)
  intro line hline k d f hkd hf
  rw [show (splitLines "u\ns\np\nt\na 0.5".toList).drop 4 = ["a 0.5".toList] from by decide,
    List.mem_singleton] at hline
  subst hline
  rw [show lineKeyDelay "a 0.5".toList = some ("a".toList, "0.5".toList) from by decide] at hkd
  simp only [Option.some.injEq, Prod.mk.injEq] at hkd
  obtain ⟨-, rfl⟩ := hkd
  rw [show goParseFloat "0.5".toList = some (.finite false 4503599627370496 (-53)) from by
    decide] at hf
  simp only [Option.some.injEq] at hf
  subst hf
  exact ⟨8796093022208000, -44, by decide, by decide⟩

/-- C9 counterexample: the claim that the recorded delay is always the
truncation of the parsed delay times 1000 fails on the code: the line
"a inf" is accepted (ParseFloat returns +Inf with no error), the float
product is +Inf, and the recorded delay is the int64 conversion of +Inf —
implementation-defined in Go and the most negative int64 on the gc/amd64
build — a negative number, not a truncation of the (nonnegative,
infinite) product. -/
theorem C9_counterexample_inf_delay :
    ∃ s, ParseWritingSession "u\ns\np\nt\na inf" = .ok s ∧
      goParseFloat "inf".toList = some (.inf false) ∧
      goFloatMul1000 (.inf false) = .inf false ∧
      s.KeyStrokes = [⟨"a", -(2 ^ 63)⟩] ∧
      ∃ ks ∈ s.KeyStrokes, ks.Delay < 0 :=
  ⟨⟨"u", "s", "p", "t", [⟨"a", -(2 ^ 63)⟩], [97], 490⟩, by decide, by decide, by decide,
   by decide, ⟨"a", -(2 ^ 63)⟩, by decide, by decide⟩

/-- C9 amended: for every accepted keystroke line the recorded delay is
the int64 conversion of the binary64 product of the parsed delay (in
seconds) and 1000; whenever that product is finite with its truncation
representable in int64, the recorded delay is exactly the product
truncated toward zero; and the session-wide running total accumulates
exactly these integers with int64 wraparound addition. -/
theorem C9_delay_conversion (content : String) (s : WritingSession)
    (h : ParseWritingSession content = .ok s) :
    s.KeyStrokes.foldl (fun a ks => wrap64 (a + ks.Delay)) 0 = sessionTotalMs content ∧
    ∀ ks ∈ s.KeyStrokes, ∃ line ∈ (splitLines content.toList).drop 4, ∃ k d f,
      lineKeyDelay line = some (k, d) ∧ goParseFloat d = some f ∧
      ks.Key = ⟨k⟩ ∧ ks.Delay = goFloatToInt (goFloatMul1000 f) ∧
      ∀ neg mant expo, goFloatMul1000 f = .finite neg mant expo →
        ¬ (finiteTrunc neg mant expo < -(2 ^ 63) ∨ 2 ^ 63 ≤ finiteTrunc neg mant expo) →
        ks.Delay = ratTrunc (goFloatVal neg mant expo) := by
  obtain ⟨-, -, -, -, hK, -, -⟩ := parse_ok_fields content s h
  constructor
  · rw [hK]
    unfold sessionTotalMs
    rw [foldl_processLine]
  · intro ks hks
    rw [hK, List.mem_filterMap] at hks
    obtain ⟨line, hline, hev⟩ := hks
    obtain ⟨k, d, f, hkd, hf, rfl⟩ := lineEvent_some_inv line ks hev
    refine ⟨line, hline, k, d, f, hkd, hf, rfl, rfl, ?_⟩
    intro neg mant expo hfin hrange
    show goFloatToInt (goFloatMul1000 f) = ratTrunc (goFloatVal neg mant expo)
    rw [hfin]
    show (if finiteTrunc neg mant expo < -(2 ^ 63) ∨ 2 ^ 63 ≤ finiteTrunc neg mant expo
        then -(2 ^ 63) else finiteTrunc neg mant expo) = ratTrunc (goFloatVal neg mant expo)
    rw [if_neg hrange, finiteTrunc_eq_ratTrunc]

theorem C9_delay_conversion_witness :
    ([⟨"a", 500⟩] : List KeyStroke).foldl (fun a ks => wrap64 (a + ks.Delay)) 0 =
      sessionTotalMs "q\nr\nv\nw\na 0.5" := by
  have h : ParseWritingSession "q\nr\nv\nw\na 0.5" =
      .ok ⟨"q", "r", "v", "w", [⟨"a", 500⟩], [97], 490⟩ := by decide
  exact (C9_delay_conversion _ _ h).1

/-- C10: `ParseWritingSession` is deterministic: it is a pure function,
and any two results of parsing the same transcript have byte-identical
reconstructed text and identical keystroke lists, counts, and header and
elapsed-time fields. -/
theorem C10_deterministic (content : String) :
    ParseWritingSession content = ParseWritingSession content ∧
    ∀ s1 s2, ParseWritingSession content = .ok s1 →
      ParseWritingSession content = .ok s2 →
      s1.RawContent = s2.RawContent ∧ s1.KeyStrokes = s2.KeyStrokes ∧
      s1.KeyStrokes.length = s2.KeyStrokes.length ∧ s1 = s2 := by
  refine ⟨rfl, fun s1 s2 h1 h2 => ?_⟩
  rw [h1] at h2
  injection h2 with h2
  subst h2
  exact ⟨rfl, rfl, rfl, rfl⟩

theorem C10_deterministic_witness :
    (⟨"w", "x", "y", "z", [], [], 490⟩ : WritingSession) =
      ⟨"w", "x", "y", "z", [], [], 490⟩ := by
  have h : ParseWritingSession "w\nx\ny\nz" =
      .ok ⟨"w", "x", "y", "z", [], [], 490⟩ := by decide
  exact ((C10_deterministic "w\nx\ny\nz").2 _ _ h h).2.2.2

end PoiesisServer
